import Mathlib

/-!
# 2PF× two-point-flow codec: shallow embedding and verification

A shallow embedding of `TwoPointFlowCompressor` from `src/2pfx_prototype.py`
(the 2PFx lossless temporal-delta codec), with theorems checking the
specification's claims about it.

Modelling conventions:
* a numpy `uint8` frame of shape H×W×3 is a `Frame`: its `data` is the
  flattened channel list in the codec's scan order (row-major over pixels,
  3 channels per pixel), values in [0,255];
* numpy `int16` arrays are `List Int` with wraparound (`i16wrap`) applied
  exactly where 16-bit arithmetic can overflow;
* a file is a `List Nat` of byte values; `f.read(n)` is `take n` of the
  remaining bytes (short reads at EOF return fewer bytes, as in Python);
* Python exceptions (`ValueError`, `struct.error`) become `Except.error`
  with the corresponding message.
-/

namespace TwoPFX

/-- 16-bit two's-complement wraparound: the value an `np.int16` cell holds. -/
def i16wrap (v : Int) : Int := ((v + 32768) % 65536) - 32768

/-- `np.int16` addition (wraps on overflow). -/
def i16add (a b : Int) : Int := i16wrap (a + b)

/-- `np.clip(v, 0, 255)` followed by `astype(np.uint8)` on one channel. -/
def clip8 (v : Int) : Nat := (max 0 (min 255 v)).toNat

/-- `struct.pack("<I", n)`: the four little-endian bytes of a `uint32`. -/
def u32le (n : Nat) : List Nat :=
  [n % 256, n / 256 % 256, n / 65536 % 256, n / 16777216 % 256]

/-- `struct.unpack("<I", ...)`: read a `uint32` from four little-endian bytes. -/
def u32FromLE (b0 b1 b2 b3 : Nat) : Nat :=
  b0 + 256 * b1 + 65536 * b2 + 16777216 * b3

/-- `struct.pack("<h", d)`: the two little-endian bytes of an `int16`. -/
def int16LE (d : Int) : List Nat :=
  [((d % 65536).toNat) % 256, ((d % 65536).toNat) / 256]

/-- `struct.unpack("<h", ...)`: read a signed `int16` from two little-endian
bytes. -/
def int16FromLE (b0 b1 : Nat) : Int :=
  let u := b0 + 256 * b1
  if 32768 ≤ u then (u : Int) - 65536 else (u : Int)

/-- The 4-bit symbol for one delta value (compress, lines 40–44):
`abs_c = abs(comp); val = abs_c if comp >= 0 else (8 | abs_c)` when
`abs_c <= 7`, else the escape code `8`. -/
def encodeSymbol (d : Int) : Nat :=
  if d.natAbs ≤ 7 then (if 0 ≤ d then d.natAbs else 8 ||| d.natAbs) else 8

/-- The side-channel bytes of a frame's delta stream (compress, lines 51–52):
each delta with `abs(comp) > 7` contributes `struct.pack("<h", comp)`, in
scan order. -/
def escBytes (delta : List Int) : List Nat :=
  (delta.filter (fun d => decide (7 < d.natAbs))).flatMap int16LE

/-- Nibble packing (compress, lines 45–56): two 4-bit symbols per byte, first
in the high nibble; a trailing odd symbol is shifted into the high nibble
with a zero low nibble. -/
def packNibbles : List Nat → List Nat
  | [] => []
  | [a] => [a <<< 4]
  | a :: b :: rest => ((a <<< 4) ||| b) :: packNibbles rest

/-- The nibble stream of a byte string, high nibble first within each byte:
the order in which decompress's shift-and-mask loop (lines 84–93) extracts
4-bit symbols from `int.from_bytes(binary_data, "big")`. -/
def nibblesOf (bytes : List Nat) : List Nat :=
  bytes.flatMap (fun b => [b / 16 % 16, b % 16])

/-- One input frame: a numpy `uint8` ndarray of shape `(H, W, C)`, with
`data` the channel values flattened in scan order (length `H * W * C`). -/
structure Frame where
  H : Nat
  W : Nat
  C : Nat
  data : List Nat
deriving Repr, DecidableEq

/-- A frame (and sequence shape) the codec supports: header dimensions
`hh × ww`, 3 channels, flattened length `hh * ww * 3`, 8-bit values. -/
def Frame.wf (f : Frame) (hh ww : Nat) : Prop :=
  f.H = hh ∧ f.W = ww ∧ f.C = 3 ∧ f.data.length = hh * ww * 3 ∧
    ∀ v ∈ f.data, v < 256

instance (f : Frame) (hh ww : Nat) : Decidable (f.wf hh ww) := by
  unfold Frame.wf; infer_instance

/-- `self.version = b"2PFX"`. -/
def magicBytes : List Nat := [50, 80, 70, 88]

/-- `frame.astype(np.int16)` on a `uint8` frame: the widening is exact. -/
def natsToInts (l : List Nat) : List Int := l.map (fun (v : Nat) => (v : Int))

/-- The per-frame delta (compress, lines 29–30): `frame.astype(np.int16) -
ref_frame`, elementwise in `int16`. -/
def encodeFrameDelta (fdata : List Nat) (ref : List Int) : List Int :=
  List.zipWith (fun (a : Nat) (r : Int) => i16wrap ((a : Int) - r)) fdata ref

/-- One frame record's bytes (compress, lines 32–60): the two `uint32`
lengths, the packed bitstream, then the side-channel bytes.
`struct.pack("<II", ...)` raises `struct.error` when a length does not fit
in a `uint32`. -/
def encodeRecord (fdata : List Nat) (ref : List Int) : Except String (List Nat) :=
  let delta := encodeFrameDelta fdata ref
  let bits := packNibbles (delta.map encodeSymbol)
  let side := escBytes delta
  if bits.length < 4294967296 ∧ side.length < 4294967296 then
    .ok (u32le bits.length ++ u32le side.length ++ bits ++ side)
  else .error "struct.error: 'I' format requires 0 <= number <= 4294967295"

/-- The compress loop (lines 28–62): write each frame's record, then set
`ref_frame = frame_int.copy()` (the original frame widened to `int16`). -/
def encodeFrames : List Frame → List Int → Except String (List Nat)
  | [], _ => .ok []
  | f :: fs, ref =>
    match encodeRecord f.data ref with
    | .error e => .error e
    | .ok r =>
      match encodeFrames fs (natsToInts f.data) with
      | .error e => .error e
      | .ok rest => .ok (r ++ rest)

/-- The validation compress performs at entry (lines 16–20), before the
output file is opened: empty input, and the channel count of `frames[0]`
only. Returns the `ValueError` message, or `none` when compress proceeds
to write the file. -/
def compressEntryCheck (frames : List Frame) : Option String :=
  match frames with
  | [] => some "No frames provided"
  | f :: _ => if f.C ≠ 3 then some "Frames must be RGB (3 channels)" else none

/-- `TwoPointFlowCompressor.compress` (lines 15–62): entry validation, magic
and `struct.pack("<III", len(frames), H, W)` header, then the frame records,
with the reference initialised to `np.zeros((H, W, 3), dtype=np.int16)`.
Returns the bytes written to the output file. -/
def compress (frames : List Frame) : Except String (List Nat) :=
  match compressEntryCheck frames with
  | some e => .error e
  | none =>
    match frames with
    | [] => .error "No frames provided"
    | f :: _ =>
      if frames.length < 4294967296 ∧ f.H < 4294967296 ∧ f.W < 4294967296 then
        match encodeFrames frames (List.replicate (f.H * f.W * 3) 0) with
        | .error e => .error e
        | .ok body =>
          .ok (magicBytes ++ u32le frames.length ++ u32le f.H ++ u32le f.W
                ++ body)
      else .error "struct.error: 'I' format requires 0 <= number <= 4294967295"

/-- The inverse symbol mapping for a non-escape nibble (decompress,
line 100): `comp = val if val <= 7 else -(val & 7)`. -/
def decodeSymbolDirect (v : Nat) : Int :=
  if v ≤ 7 then (v : Int) else -((v &&& 7 : Nat) : Int)

/-- The symbol-unpacking loop of decompress (lines 87–102), over the nibble
stream it actually consumes.  State: `decLen` is the record's declared
side-channel length, `decData` the side-channel bytes read from the file,
`off` the running `dec_offset`.  An escape nibble (`val == 8`) checks
`dec_offset + 2 > dec_len` (raising `ValueError`), then
`struct.unpack_from("<h", decimal_data, dec_offset)` (raising
`struct.error` when the buffer itself is too short) and consumes two bytes;
any other nibble decodes directly.  Returns the decoded deltas in scan
order together with the final `dec_offset`. -/
def unpackLoop (nibs : List Nat) (decLen : Nat) (decData : List Nat)
    (off : Nat) : Except String (List Int × Nat) :=
  match nibs with
  | [] => .ok ([], off)
  | v :: rest =>
    if v = 8 then
      if decLen < off + 2 then .error "Missing large delta bytes"
      else if decData.length < off + 2 then
        .error "struct.error: unpack_from requires a buffer of at least 2 bytes"
      else
        match unpackLoop rest decLen decData (off + 2) with
        | .error e => .error e
        | .ok (ds, off') =>
          .ok (int16FromLE (decData.getD off 0) (decData.getD (off + 1) 0)
                :: ds, off')
    else
      match unpackLoop rest decLen decData off with
      | .error e => .error e
      | .ok (ds, off') => .ok (decodeSymbolDirect v :: ds, off')

/-- Decoding one record's delta array (decompress, lines 81–105).  The loop
consumes nibbles high-then-low per byte until `H*W` pixels (`hw3 = H*W*3`
channels) are filled or the bitstream runs out, so it processes exactly
`min hw3 (2 * |binData|)` nibbles; delta cells never reached stay at the
`np.zeros` initialisation.  After the loop, `dec_offset != dec_len` raises
`ValueError` (line 104). -/
def decodeDelta (hw3 : Nat) (binData : List Nat) (decLen : Nat)
    (decData : List Nat) : Except String (List Int) :=
  let nibs := (nibblesOf binData).take hw3
  match unpackLoop nibs decLen decData 0 with
  | .error e => .error e
  | .ok (ds, off) =>
    if off ≠ decLen then
      .error "Decimal data mismatch"
    else
      .ok (ds ++ List.replicate (hw3 - nibs.length) 0)

/-- Frame reconstruction (decompress, lines 107–111): `frame_int =
ref_frame + delta` in `int16`, the output frame is `np.clip(frame_int, 0,
255).astype(np.uint8)`, and `ref_frame = frame_int.copy()` carries the
unclipped sum forward. -/
def reconstruct (ref delta : List Int) : List Nat × List Int :=
  let frameInt := List.zipWith i16add ref delta
  (frameInt.map clip8, frameInt)

/-- The decompress frame loop (lines 76–111): for each record read
`struct.unpack("<II", f.read(8))` (a short read raises `struct.error`),
read the bitstream and side-channel payloads, decode the delta, reconstruct
the frame, and recurse with the unclipped `int16` sum as reference. -/
def decodeFrames (hw3 : Nat) : Nat → List Nat → List Int →
    Except String (List (List Nat))
  | 0, _, _ => .ok []
  | n + 1, bytes, ref =>
    if bytes.length < 8 then
      .error "struct.error: unpack requires a buffer of 8 bytes"
    else
      let binLen := u32FromLE (bytes.getD 0 0) (bytes.getD 1 0)
        (bytes.getD 2 0) (bytes.getD 3 0)
      let decLen := u32FromLE (bytes.getD 4 0) (bytes.getD 5 0)
        (bytes.getD 6 0) (bytes.getD 7 0)
      let rest := bytes.drop 8
      let binData := rest.take binLen
      let decData := (rest.drop binLen).take decLen
      match decodeDelta hw3 binData decLen decData with
      | .error e => .error e
      | .ok delta =>
        let (frame, newRef) := reconstruct ref delta
        match decodeFrames hw3 n ((rest.drop binLen).drop decLen) newRef with
        | .error e => .error e
        | .ok frames => .ok (frame :: frames)

/-- `n_frames` as decompress parses it from the header (line 71). -/
def headerFrameCount (file : List Nat) : Nat :=
  u32FromLE (file.getD 4 0) (file.getD 5 0) (file.getD 6 0) (file.getD 7 0)

/-- `H` as decompress parses it from the header (line 71). -/
def headerHeight (file : List Nat) : Nat :=
  u32FromLE (file.getD 8 0) (file.getD 9 0) (file.getD 10 0) (file.getD 11 0)

/-- `W` as decompress parses it from the header (line 71). -/
def headerWidth (file : List Nat) : Nat :=
  u32FromLE (file.getD 12 0) (file.getD 13 0) (file.getD 14 0) (file.getD 15 0)

/-- `TwoPointFlowCompressor.decompress` (lines 66–113): check the magic,
unpack `"<III"` from the next 12 bytes (a short read raises
`struct.error`), start from an all-zero `int16` reference, and run the
frame loop.  Bytes after the last record are ignored, as in the source. -/
def decompress (file : List Nat) : Except String (List (List Nat)) :=
  if file.take 4 ≠ magicBytes then .error "Not a 2PFX file"
  else if file.length < 16 then
    .error "struct.error: unpack requires a buffer of 12 bytes"
  else
    decodeFrames (headerHeight file * headerWidth file * 3)
      (headerFrameCount file) (file.drop 16)
      (List.replicate (headerHeight file * headerWidth file * 3) 0)

/-! ## Arithmetic and bit-level helper lemmas -/

lemma i16wrap_eq_self (v : Int) (h1 : -32768 ≤ v) (h2 : v ≤ 32767) :
    i16wrap v = v := by
  unfold i16wrap; omega

lemma int16LE_length (d : Int) : (int16LE d).length = 2 := rfl

lemma int16FromLE_int16LE (d : Int) (h1 : -32768 ≤ d) (h2 : d ≤ 32767) :
    int16FromLE ((int16LE d).getD 0 0) ((int16LE d).getD 1 0) = d := by
  simp only [int16LE, int16FromLE, List.getD_cons_zero, List.getD_cons_succ]
  have h0 : (0 : Int) ≤ d % 65536 := Int.emod_nonneg d (by norm_num)
  have h3 : d % 65536 < 65536 := Int.emod_lt_of_pos d (by norm_num)
  have hcast : (((d % 65536).toNat : Int)) = d % 65536 := Int.toNat_of_nonneg h0
  split <;> omega

lemma nibble_pack_eq_aux : ∀ a < 16, ∀ b < 16, (a <<< 4) ||| b = 16 * a + b := by
  decide

lemma nibble_pack_eq (a b : Nat) (ha : a < 16) (hb : b < 16) :
    (a <<< 4) ||| b = 16 * a + b := nibble_pack_eq_aux a ha b hb

lemma nibble_pad_eq_aux : ∀ a < 16, a <<< 4 = 16 * a := by decide

lemma nibble_pad_eq (a : Nat) (ha : a < 16) : a <<< 4 = 16 * a :=
  nibble_pad_eq_aux a ha

lemma lor8_eq_aux : ∀ m < 8, 8 ||| m = 8 + m := by decide

lemma lor8_eq (m : Nat) (h : m ≤ 7) : 8 ||| m = 8 + m :=
  lor8_eq_aux m (by omega)

lemma land7_eq_aux : ∀ m < 8, (8 + m) &&& 7 = m := by decide

lemma land7_eq (m : Nat) (h : m ≤ 7) : (8 + m) &&& 7 = m :=
  land7_eq_aux m (by omega)

lemma clip8_le (v : Int) : clip8 v ≤ 255 := by
  unfold clip8; omega

lemma clip8_of_range (v : Int) (h1 : 0 ≤ v) (h2 : v ≤ 255) :
    (clip8 v : Int) = v := by
  unfold clip8; omega

/-! ## Symbol-codec lemmas -/

lemma encodeSymbol_of_nonneg (d : Int) (h7 : d.natAbs ≤ 7) (hd : 0 ≤ d) :
    encodeSymbol d = d.natAbs := by
  unfold encodeSymbol; rw [if_pos h7, if_pos hd]

lemma encodeSymbol_of_neg (d : Int) (h7 : d.natAbs ≤ 7) (hd : d < 0) :
    encodeSymbol d = 8 + d.natAbs := by
  unfold encodeSymbol; rw [if_pos h7, if_neg (by omega), lor8_eq _ h7]

lemma encodeSymbol_of_esc (d : Int) (h7 : 7 < d.natAbs) :
    encodeSymbol d = 8 := by
  unfold encodeSymbol; rw [if_neg (by omega)]

lemma encodeSymbol_lt_16 (d : Int) : encodeSymbol d < 16 := by
  by_cases h7 : d.natAbs ≤ 7
  · rcases le_or_lt 0 d with hd | hd
    · rw [encodeSymbol_of_nonneg d h7 hd]; omega
    · rw [encodeSymbol_of_neg d h7 hd]; omega
  · rw [encodeSymbol_of_esc d (by omega)]; omega

lemma encodeSymbol_eq_8_iff (d : Int) : encodeSymbol d = 8 ↔ 7 < d.natAbs := by
  constructor
  · intro h
    by_contra hc
    push_neg at hc
    rcases le_or_lt 0 d with hd | hd
    · rw [encodeSymbol_of_nonneg d hc hd] at h; omega
    · rw [encodeSymbol_of_neg d hc hd] at h
      have : 1 ≤ d.natAbs := by omega
      omega
  · exact encodeSymbol_of_esc d

lemma decodeSymbolDirect_encodeSymbol (d : Int) (h : d.natAbs ≤ 7) :
    decodeSymbolDirect (encodeSymbol d) = d := by
  rcases le_or_lt 0 d with hd | hd
  · rw [encodeSymbol_of_nonneg d h hd]
    unfold decodeSymbolDirect
    rw [if_pos h]
    omega
  · rw [encodeSymbol_of_neg d h hd]
    unfold decodeSymbolDirect
    rw [if_neg (by omega), land7_eq _ h]
    omega

/-! ## List helper lemmas -/

lemma take_len_append {α : Type} (a b : List α) : (a ++ b).take a.length = a := by
  induction a with
  | nil => rfl
  | cons x xs ih => simp [List.take_succ_cons, ih]

lemma drop_len_append {α : Type} (a b : List α) : (a ++ b).drop a.length = b := by
  induction a with
  | nil => rfl
  | cons x xs ih => simp [ih]

lemma getD_append_len {α : Type} (a b : List α) (i : Nat) (d : α) :
    (a ++ b).getD (a.length + i) d = b.getD i d := by
  induction a with
  | nil => simp
  | cons x xs ih => simpa [Nat.succ_add] using ih

lemma getD_replicate_zero (k i : Nat) :
    (List.replicate k (0 : Int)).getD i 0 = 0 := by
  induction k generalizing i with
  | zero => cases i <;> rfl
  | succ k ih =>
    cases i with
    | zero => rfl
    | succ j => simp [List.replicate_succ, ih j]

/-! ## Bit-packer lemmas -/

lemma nibblesOf_length (bytes : List Nat) :
    (nibblesOf bytes).length = 2 * bytes.length := by
  induction bytes with
  | nil => rfl
  | cons b bs ih => simp [nibblesOf] at ih ⊢; omega

lemma packNibbles_length :
    ∀ s : List Nat, (packNibbles s).length = (s.length + 1) / 2
  | [] => rfl
  | [_] => by simp [packNibbles]
  | a :: b :: rest => by
    simp only [packNibbles, List.length_cons]
    rw [packNibbles_length rest]
    omega

lemma nibblesOf_packNibbles :
    ∀ s : List Nat, (∀ x ∈ s, x < 16) →
      nibblesOf (packNibbles s) = s ++ List.replicate (s.length % 2) 0
  | [], _ => rfl
  | [a], h => by
    have ha : a < 16 := h a (by simp)
    simp only [packNibbles, nibblesOf, List.flatMap_cons, List.flatMap_nil,
      List.length_cons, List.length_nil]
    rw [nibble_pad_eq a ha]
    have h1 : 16 * a / 16 % 16 = a := by omega
    have h2 : 16 * a % 16 = 0 := by omega
    rw [h1, h2]
    rfl
  | a :: b :: rest, h => by
    have ha : a < 16 := h a (by simp)
    have hb : b < 16 := h b (by simp)
    have hrest : ∀ x ∈ rest, x < 16 := fun x hx => h x (by simp [hx])
    simp only [packNibbles, nibblesOf, List.flatMap_cons]
    rw [nibble_pack_eq a b ha hb]
    have h1 : (16 * a + b) / 16 % 16 = a := by omega
    have h2 : (16 * a + b) % 16 = b := by omega
    have ih := nibblesOf_packNibbles rest hrest
    simp only [nibblesOf] at ih
    have hmod : (rest.length + 1 + 1) % 2 = rest.length % 2 := by omega
    simp [h1, h2, ih, List.length_cons, hmod]

/-! ## Side-channel lemmas -/

lemma escBytes_nil : escBytes [] = [] := rfl

lemma escBytes_cons_small (d : Int) (δ : List Int) (h : d.natAbs ≤ 7) :
    escBytes (d :: δ) = escBytes δ := by
  have hn : ¬(7 < d.natAbs) := by omega
  simp [escBytes, List.filter_cons, hn]

lemma escBytes_cons_esc (d : Int) (δ : List Int) (h : 7 < d.natAbs) :
    escBytes (d :: δ) = int16LE d ++ escBytes δ := by
  simp [escBytes, List.filter_cons, h]

lemma getD_append_len0 {α : Type} (a b : List α) (d : α) :
    (a ++ b).getD a.length d = b.getD 0 d := by
  have h := getD_append_len a b 0 d
  simpa using h

/-! ## `unpackLoop` step equations -/

lemma unpackLoop_cons_direct (v : Nat) (rest : List Nat) (decLen : Nat)
    (decData : List Nat) (off : Nat) (hv : ¬(v = 8)) :
    unpackLoop (v :: rest) decLen decData off
      = match unpackLoop rest decLen decData off with
        | .error e => .error e
        | .ok (ds, off') => .ok (decodeSymbolDirect v :: ds, off') := by
  conv_lhs => rw [unpackLoop]
  rw [if_neg hv]

lemma unpackLoop_cons_esc (rest : List Nat) (decLen : Nat) (decData : List Nat)
    (off : Nat) (h1 : off + 2 ≤ decLen) (h2 : off + 2 ≤ decData.length) :
    unpackLoop (8 :: rest) decLen decData off
      = match unpackLoop rest decLen decData (off + 2) with
        | .error e => .error e
        | .ok (ds, off') =>
          .ok (int16FromLE (decData.getD off 0) (decData.getD (off + 1) 0)
                :: ds, off') := by
  conv_lhs => rw [unpackLoop]
  rw [if_pos rfl, if_neg (by omega), if_neg (by omega)]

/-! ## Unpacking inverts packing -/

lemma unpackLoop_encode :
    ∀ (δ : List Int) (pre : List Nat), (∀ d ∈ δ, d.natAbs ≤ 255) →
      unpackLoop (δ.map encodeSymbol) (pre.length + (escBytes δ).length)
        (pre ++ escBytes δ) pre.length
        = .ok (δ, pre.length + (escBytes δ).length)
  | [], pre, _ => by simp [unpackLoop, escBytes]
  | d :: δ', pre, h => by
    have hd : d.natAbs ≤ 255 := h d (by simp)
    have hδ' : ∀ x ∈ δ', x.natAbs ≤ 255 := fun x hx => h x (by simp [hx])
    by_cases h7 : d.natAbs ≤ 7
    · have hsym : ¬(encodeSymbol d = 8) := by
        rw [encodeSymbol_eq_8_iff]; omega
      have hesc := escBytes_cons_small d δ' h7
      have ih := unpackLoop_encode δ' pre hδ'
      rw [List.map_cons, unpackLoop_cons_direct _ _ _ _ _ hsym, hesc, ih]
      simp [decodeSymbolDirect_encodeSymbol d h7]
    · push_neg at h7
      have hsym : encodeSymbol d = 8 := encodeSymbol_of_esc d h7
      have hesc := escBytes_cons_esc d δ' h7
      rw [List.map_cons, hsym, hesc]
      have hL : (int16LE d ++ escBytes δ').length
          = 2 + (escBytes δ').length := by
        rw [List.length_append, int16LE_length]
      rw [hL, ← Nat.add_assoc]
      have hbuf : pre.length + 2 ≤ (pre ++ (int16LE d ++ escBytes δ')).length := by
        rw [List.length_append, hL]; omega
      rw [unpackLoop_cons_esc _ _ _ _ (by omega) hbuf]
      have hplen : (pre ++ int16LE d).length = pre.length + 2 := by
        simp [int16LE]
      have ih := unpackLoop_encode δ' (pre ++ int16LE d) hδ'
      rw [hplen, List.append_assoc] at ih
      rw [ih]
      have hb0 : (pre ++ (int16LE d ++ escBytes δ')).getD pre.length 0
          = (int16LE d).getD 0 0 := by
        rw [getD_append_len0]; rfl
      have hb1 : (pre ++ (int16LE d ++ escBytes δ')).getD (pre.length + 1) 0
          = (int16LE d).getD 1 0 := by
        rw [getD_append_len pre _ 1 0]; rfl
      have hcomp : int16FromLE ((int16LE d).getD 0 0) ((int16LE d).getD 1 0)
          = d := int16FromLE_int16LE d (by omega) (by omega)
      have hfin : int16FromLE
          ((pre ++ (int16LE d ++ escBytes δ')).getD pre.length 0)
          ((pre ++ (int16LE d ++ escBytes δ')).getD (pre.length + 1) 0) = d := by
        rw [hb0, hb1]; exact hcomp
      simpa using hfin

lemma decodeDelta_encode (δ : List Int) (h : ∀ d ∈ δ, d.natAbs ≤ 255) :
    decodeDelta δ.length (packNibbles (δ.map encodeSymbol))
      (escBytes δ).length (escBytes δ) = .ok δ := by
  unfold decodeDelta
  have hlt : ∀ x ∈ δ.map encodeSymbol, x < 16 := by
    intro x hx
    rcases List.mem_map.1 hx with ⟨d, _, rfl⟩
    exact encodeSymbol_lt_16 d
  have hnib := nibblesOf_packNibbles (δ.map encodeSymbol) hlt
  have hmaplen : (δ.map encodeSymbol).length = δ.length := List.length_map _ _
  have htake : (nibblesOf (packNibbles (δ.map encodeSymbol))).take δ.length
      = δ.map encodeSymbol := by
    rw [hnib, ← hmaplen, take_len_append]
  rw [htake]
  have hloop := unpackLoop_encode δ [] h
  simp only [List.length_nil, Nat.zero_add, List.nil_append] at hloop
  simp [hloop, hmaplen]

/-! ## Delta-engine and frame-reconstructor lemmas -/

lemma encodeFrameDelta_length (fdata : List Nat) (ref : List Int) :
    (encodeFrameDelta fdata ref).length = min fdata.length ref.length := by
  simp [encodeFrameDelta]

lemma encodeFrameDelta_abs (fdata : List Nat) (ref : List Int)
    (hf : ∀ v ∈ fdata, v < 256) (hr : ∀ r ∈ ref, 0 ≤ r ∧ r < 256) :
    ∀ d ∈ encodeFrameDelta fdata ref, d.natAbs ≤ 255 := by
  induction fdata generalizing ref with
  | nil => intro d hd; simp [encodeFrameDelta] at hd
  | cons a fs ih =>
    intro d hd
    cases ref with
    | nil => simp [encodeFrameDelta] at hd
    | cons r rs =>
      simp only [encodeFrameDelta, List.zipWith_cons_cons, List.mem_cons] at hd
      rcases hd with hd | hd
      · have ha : a < 256 := hf a (by simp)
        have hrr := hr r (by simp)
        subst hd
        rw [i16wrap_eq_self _ (by omega) (by omega)]
        omega
      · exact ih rs (fun v hv => hf v (by simp [hv]))
          (fun x hx => hr x (by simp [hx])) d hd

lemma reconstruct_encodeDelta (fdata : List Nat) (ref : List Int)
    (hlen : ref.length = fdata.length)
    (hf : ∀ v ∈ fdata, v < 256) (hr : ∀ r ∈ ref, 0 ≤ r ∧ r < 256) :
    reconstruct ref (encodeFrameDelta fdata ref)
      = (fdata, natsToInts fdata) := by
  induction fdata generalizing ref with
  | nil =>
    cases ref with
    | nil => rfl
    | cons r rs => simp at hlen
  | cons a fs ih =>
    cases ref with
    | nil => simp at hlen
    | cons r rs =>
      have ha : a < 256 := hf a (by simp)
      have hrr := hr r (by simp)
      have hsum : i16add r (i16wrap ((a : Int) - r)) = (a : Int) := by
        rw [i16wrap_eq_self _ (by omega) (by omega)]
        unfold i16add
        rw [show r + ((a : Int) - r) = (a : Int) from by ring]
        exact i16wrap_eq_self _ (by omega) (by omega)
      have ihr := ih rs (by simpa using hlen)
        (fun v hv => hf v (by simp [hv])) (fun x hx => hr x (by simp [hx]))
      simp only [reconstruct, encodeFrameDelta, natsToInts,
        List.zipWith_cons_cons, List.map_cons, Prod.mk.injEq] at ihr ⊢
      refine ⟨?_, ?_⟩
      · rw [hsum]
        rw [show clip8 (a : Int) = a from by unfold clip8; omega]
        exact congrArg (a :: ·) ihr.1
      · rw [hsum]
        exact congrArg ((a : Int) :: ·) ihr.2

lemma natsToInts_length (l : List Nat) : (natsToInts l).length = l.length :=
  List.length_map _ _

/-! ## Container-codec lemmas -/

lemma u32FromLE_u32le (m : Nat) (h : m < 4294967296) :
    u32FromLE (m % 256) (m / 256 % 256) (m / 65536 % 256)
      (m / 16777216 % 256) = m := by
  unfold u32FromLE
  omega

lemma decodeFrames_record (hw3 n : Nat) (bits side rest : List Nat)
    (ref : List Int) (hb : bits.length < 4294967296)
    (hs : side.length < 4294967296) :
    decodeFrames hw3 (n + 1)
      (u32le bits.length ++ u32le side.length ++ bits ++ side ++ rest) ref
      = match decodeDelta hw3 bits side.length side with
        | .error e => .error e
        | .ok delta =>
          match decodeFrames hw3 n rest (reconstruct ref delta).2 with
          | .error e => .error e
          | .ok frames => .ok ((reconstruct ref delta).1 :: frames) := by
  conv_lhs => rw [decodeFrames]
  have hlen : ¬((u32le bits.length ++ u32le side.length ++ bits ++ side
      ++ rest).length < 8) := by
    simp [u32le]
  rw [if_neg hlen]
  have hbl : u32FromLE
      ((u32le bits.length ++ u32le side.length ++ bits ++ side ++ rest).getD 0 0)
      ((u32le bits.length ++ u32le side.length ++ bits ++ side ++ rest).getD 1 0)
      ((u32le bits.length ++ u32le side.length ++ bits ++ side ++ rest).getD 2 0)
      ((u32le bits.length ++ u32le side.length ++ bits ++ side ++ rest).getD 3 0)
      = bits.length := u32FromLE_u32le bits.length hb
  have hsl : u32FromLE
      ((u32le bits.length ++ u32le side.length ++ bits ++ side ++ rest).getD 4 0)
      ((u32le bits.length ++ u32le side.length ++ bits ++ side ++ rest).getD 5 0)
      ((u32le bits.length ++ u32le side.length ++ bits ++ side ++ rest).getD 6 0)
      ((u32le bits.length ++ u32le side.length ++ bits ++ side ++ rest).getD 7 0)
      = side.length := u32FromLE_u32le side.length hs
  have hdrop : (u32le bits.length ++ u32le side.length ++ bits ++ side
      ++ rest).drop 8 = bits ++ side ++ rest := rfl
  simp only [List.append_assoc] at hbl hsl hdrop ⊢
  simp only [hbl, hsl, hdrop, take_len_append, drop_len_append]

lemma encode_decode_frames (hw3 : Nat) :
    ∀ (fs : List Frame) (prev : List Nat) (out extra : List Nat),
      (∀ f ∈ fs, f.data.length = hw3 ∧ ∀ v ∈ f.data, v < 256) →
      prev.length = hw3 → (∀ v ∈ prev, v < 256) →
      encodeFrames fs (natsToInts prev) = .ok out →
      decodeFrames hw3 fs.length (out ++ extra) (natsToInts prev)
        = .ok (fs.map Frame.data)
  | [], prev, out, extra, _, _, _, hok => by
    simp only [encodeFrames, Except.ok.injEq] at hok
    subst hok
    simp [decodeFrames]
  | f :: fs, prev, out, extra, hwf, hplen, hpval, hok => by
    have hfd : f.data.length = hw3 := (hwf f (by simp)).1
    have hfv : ∀ v ∈ f.data, v < 256 := (hwf f (by simp)).2
    have hwf' : ∀ g ∈ fs, g.data.length = hw3 ∧ ∀ v ∈ g.data, v < 256 :=
      fun g hg => hwf g (by simp [hg])
    -- peel the two binds of `encodeFrames (f :: fs)`
    rw [encodeFrames] at hok
    rcases hrec : encodeRecord f.data (natsToInts prev) with e | r
    · rw [hrec] at hok; simp at hok
    rw [hrec] at hok
    rcases hrest : encodeFrames fs (natsToInts f.data)
        with e | rest
    · rw [hrest] at hok; simp at hok
    rw [hrest] at hok
    simp only [Except.ok.injEq] at hok
    subst hok
    -- expose the record's shape
    unfold encodeRecord at hrec
    set delta := encodeFrameDelta f.data (natsToInts prev)
      with hdelta
    set bits := packNibbles (delta.map encodeSymbol) with hbits
    set side := escBytes delta with hside
    by_cases hcond : bits.length < 4294967296 ∧ side.length < 4294967296
    · rw [if_pos hcond] at hrec
      have hr : r = u32le bits.length ++ u32le side.length ++ bits ++ side := by
        injection hrec with h; exact h.symm
      subst hr
      -- delta facts
      have hprevmap : ∀ x ∈ natsToInts prev, 0 ≤ x ∧ x < 256 := by
        intro x hx
        simp only [natsToInts, List.mem_map] at hx
        rcases hx with ⟨w, hw, rfl⟩
        have := hpval w hw
        omega
      have hdlen : delta.length = hw3 := by
        rw [hdelta, encodeFrameDelta_length, natsToInts_length, hplen, hfd]
        exact Nat.min_self hw3
      have habs : ∀ d ∈ delta, d.natAbs ≤ 255 :=
        encodeFrameDelta_abs f.data _ hfv hprevmap
      have hdec : decodeDelta hw3 bits side.length side = .ok delta := by
        have := decodeDelta_encode delta habs
        rwa [hdlen] at this
      have hrecon : reconstruct (natsToInts prev) delta
          = (f.data, natsToInts f.data) := by
        rw [hdelta]
        exact reconstruct_encodeDelta f.data _
          (by rw [natsToInts_length, hplen, hfd]) hfv hprevmap
      have ih := encode_decode_frames hw3 fs f.data (rest) (extra)
        hwf' hfd hfv hrest
      -- assemble
      have hshape : u32le bits.length ++ u32le side.length ++ bits ++ side
          ++ rest ++ extra
          = u32le bits.length ++ u32le side.length ++ bits ++ side
            ++ (rest ++ extra) := by
        simp [List.append_assoc]
      calc decodeFrames hw3 (f :: fs).length
            (u32le bits.length ++ u32le side.length ++ bits ++ side ++ rest
              ++ extra) (natsToInts prev)
          = decodeFrames hw3 (fs.length + 1)
            (u32le bits.length ++ u32le side.length ++ bits ++ side
              ++ (rest ++ extra)) (natsToInts prev) := by
            rw [← hshape]; rfl
        _ = .ok ((f :: fs).map Frame.data) := by
            rw [decodeFrames_record hw3 fs.length bits side (rest ++ extra) _
              hcond.1 hcond.2, hdec]
            simp only [hrecon, ih]
            simp
    · rw [if_neg hcond] at hrec
      exact absurd hrec (by simp)

lemma natsToInts_replicate_zero (k : Nat) :
    natsToInts (List.replicate k 0) = List.replicate k (0 : Int) := by
  simp [natsToInts]

lemma header_take4 (n h w : Nat) (body : List Nat) :
    (magicBytes ++ u32le n ++ u32le h ++ u32le w ++ body).take 4
      = magicBytes := rfl

lemma header_drop16 (n h w : Nat) (body : List Nat) :
    (magicBytes ++ u32le n ++ u32le h ++ u32le w ++ body).drop 16 = body := rfl

lemma header_length (n h w : Nat) (body : List Nat) :
    (magicBytes ++ u32le n ++ u32le h ++ u32le w ++ body).length
      = 16 + body.length := by
  simp [magicBytes, u32le]
  omega

lemma headerFrameCount_eq (n h w : Nat) (body : List Nat)
    (hn : n < 4294967296) :
    headerFrameCount (magicBytes ++ u32le n ++ u32le h ++ u32le w ++ body)
      = n := by
  show u32FromLE (n % 256) (n / 256 % 256) (n / 65536 % 256)
    (n / 16777216 % 256) = n
  exact u32FromLE_u32le n hn

lemma headerHeight_eq (n h w : Nat) (body : List Nat) (hh : h < 4294967296) :
    headerHeight (magicBytes ++ u32le n ++ u32le h ++ u32le w ++ body) = h := by
  show u32FromLE (h % 256) (h / 256 % 256) (h / 65536 % 256)
    (h / 16777216 % 256) = h
  exact u32FromLE_u32le h hh

lemma headerWidth_eq (n h w : Nat) (body : List Nat) (hw : w < 4294967296) :
    headerWidth (magicBytes ++ u32le n ++ u32le h ++ u32le w ++ body) = w := by
  show u32FromLE (w % 256) (w / 256 % 256) (w / 65536 % 256)
    (w / 16777216 % 256) = w
  exact u32FromLE_u32le w hw

lemma unpackLoop_ok_shape :
    ∀ (nibs : List Nat) (decLen : Nat) (decData : List Nat) (off : Nat)
      (ds : List Int) (off' : Nat),
      unpackLoop nibs decLen decData off = .ok (ds, off') →
      ds.length = nibs.length ∧ off' = off + 2 * nibs.count 8
  | [], decLen, decData, off, ds, off', h => by
    simp only [unpackLoop, Except.ok.injEq, Prod.mk.injEq] at h
    simp [← h.1, ← h.2]
  | v :: rest, decLen, decData, off, ds, off', h => by
    by_cases hv : v = 8
    · subst hv
      rw [unpackLoop, if_pos rfl] at h
      by_cases hc1 : decLen < off + 2
      · rw [if_pos hc1] at h; exact absurd h (by simp)
      rw [if_neg hc1] at h
      by_cases hc2 : decData.length < off + 2
      · rw [if_pos hc2] at h; exact absurd h (by simp)
      rw [if_neg hc2] at h
      rcases hrec : unpackLoop rest decLen decData (off + 2) with e | ⟨ds', o'⟩
      · rw [hrec] at h; exact absurd h (by simp)
      rw [hrec] at h
      simp only [Except.ok.injEq, Prod.mk.injEq] at h
      obtain ⟨hds, hoff⟩ := h
      have ih := unpackLoop_ok_shape rest decLen decData (off + 2) ds' o' hrec
      subst hds hoff
      simp only [List.length_cons, List.count_cons, List.length_cons]
      constructor
      · simp [ih.1]
      · rw [ih.2]; simp; omega
    · rw [unpackLoop, if_neg hv] at h
      rcases hrec : unpackLoop rest decLen decData off with e | ⟨ds', o'⟩
      · rw [hrec] at h; exact absurd h (by simp)
      rw [hrec] at h
      simp only [Except.ok.injEq, Prod.mk.injEq] at h
      obtain ⟨hds, hoff⟩ := h
      have ih := unpackLoop_ok_shape rest decLen decData off ds' o' hrec
      subst hds hoff
      have hcnt : (v :: rest).count 8 = rest.count 8 := by
        simp [List.count_cons, hv]
      rw [hcnt]
      exact ⟨by simp [ih.1], ih.2⟩

lemma decodeDelta_ok_parts (hw3 : Nat) (bin : List Nat) (decLen : Nat)
    (decData : List Nat) (δ : List Int)
    (h : decodeDelta hw3 bin decLen decData = .ok δ) :
    ∃ ds off,
      unpackLoop ((nibblesOf bin).take hw3) decLen decData 0 = .ok (ds, off) ∧
      off = decLen ∧ δ = ds ++ List.replicate (hw3 - ((nibblesOf bin).take hw3).length) 0 := by
  simp only [decodeDelta] at h
  rcases hloop : unpackLoop ((nibblesOf bin).take hw3) decLen decData 0
      with e | ⟨ds, off⟩
  · rw [hloop] at h; exact absurd h (by simp)
  simp only [hloop] at h
  by_cases hoff : off ≠ decLen
  · rw [if_pos hoff] at h; exact absurd h (by simp)
  rw [if_neg hoff] at h
  push_neg at hoff
  simp only [Except.ok.injEq] at h
  exact ⟨ds, off, rfl, hoff, h.symm⟩

/-! ## Claim theorems -/

/-- **C1.** For every non-empty sequence of frames of identical height `hh`,
width `ww` and 3 channels, with every channel value an 8-bit unsigned
integer in [0,255], decompressing the bytes produced by `compress` returns
a sequence of frames equal to the input pixel-for-pixel, with the same
frame count and dimensions. -/
theorem compress_decompress_roundtrip (frames : List Frame) (hh ww : Nat)
    (out : List Nat) (hne : frames ≠ [])
    (hwf : ∀ f ∈ frames, f.wf hh ww)
    (hok : compress frames = .ok out) :
    decompress out = .ok (frames.map Frame.data) := by
  rcases frames with _ | ⟨f0, fs⟩
  · exact absurd rfl hne
  obtain ⟨hH0, hW0, hC0, hlen0, hval0⟩ := hwf f0 (by simp)
  have hcheck : compressEntryCheck (f0 :: fs) = none := by
    simp [compressEntryCheck, hC0]
  simp only [compress, hcheck] at hok
  by_cases hbnd : (f0 :: fs).length < 4294967296 ∧ f0.H < 4294967296
      ∧ f0.W < 4294967296
  swap
  · rw [if_neg hbnd] at hok; exact absurd hok (by simp)
  rw [if_pos hbnd] at hok
  rcases henc : encodeFrames (f0 :: fs) (List.replicate (f0.H * f0.W * 3) 0)
      with e | body
  · rw [henc] at hok; exact absurd hok (by simp)
  rw [henc] at hok
  simp only [Except.ok.injEq] at hok
  subst hok
  unfold decompress
  rw [if_neg (by rw [header_take4]; simp),
    if_neg (by rw [header_length]; omega),
    headerFrameCount_eq _ _ _ _ hbnd.1,
    headerHeight_eq _ _ _ _ hbnd.2.1,
    headerWidth_eq _ _ _ _ hbnd.2.2,
    header_drop16, hH0, hW0]
  have hmain := encode_decode_frames (hh * ww * 3) (f0 :: fs)
    (List.replicate (hh * ww * 3) 0) body []
    (fun f hf => ⟨(hwf f hf).2.2.2.1, (hwf f hf).2.2.2.2⟩)
    (by simp)
    (fun v hv => by rw [List.eq_of_mem_replicate hv]; omega)
    (by rw [natsToInts_replicate_zero, ← hH0, ← hW0]; exact henc)
  rw [natsToInts_replicate_zero, List.append_nil] at hmain
  exact hmain

/-- Witness for C1: a concrete 1×2, 2-frame sequence (with escape deltas)
compresses to an explicit byte string and decompresses back exactly. -/
theorem compress_decompress_roundtrip_witness :
    ([Frame.mk 1 2 3 [10, 20, 30, 200, 0, 255],
      Frame.mk 1 2 3 [9, 20, 255, 0, 7, 255]] : List Frame) ≠ [] ∧
    (∀ f ∈ ([Frame.mk 1 2 3 [10, 20, 30, 200, 0, 255],
      Frame.mk 1 2 3 [9, 20, 255, 0, 7, 255]] : List Frame), f.wf 1 2) ∧
    compress [Frame.mk 1 2 3 [10, 20, 30, 200, 0, 255],
      Frame.mk 1 2 3 [9, 20, 255, 0, 7, 255]]
      = .ok [50, 80, 70, 88, 2, 0, 0, 0, 1, 0, 0, 0, 2, 0, 0, 0, 3, 0, 0, 0,
        10, 0, 0, 0, 136, 136, 8, 10, 0, 20, 0, 30, 0, 200, 0, 255, 0,
        3, 0, 0, 0, 4, 0, 0, 0, 144, 136, 112, 225, 0, 56, 255] ∧
    decompress [50, 80, 70, 88, 2, 0, 0, 0, 1, 0, 0, 0, 2, 0, 0, 0, 3, 0, 0, 0,
        10, 0, 0, 0, 136, 136, 8, 10, 0, 20, 0, 30, 0, 200, 0, 255, 0,
        3, 0, 0, 0, 4, 0, 0, 0, 144, 136, 112, 225, 0, 56, 255]
      = .ok [[10, 20, 30, 200, 0, 255], [9, 20, 255, 0, 7, 255]] := by
  refine ⟨by decide, by decide, by rfl, ?_⟩
  exact compress_decompress_roundtrip
    [Frame.mk 1 2 3 [10, 20, 30, 200, 0, 255],
     Frame.mk 1 2 3 [9, 20, 255, 0, 7, 255]] 1 2 _
    (by decide) (by decide) (by rfl)

/-- **C2, counterexample.** A container declaring one 1×1 frame whose record
carries a single bitstream byte `0x11` (two symbols, where H×W×3 = 3 symbols
need `ceil(3/2) = 2` bytes) decodes *successfully*: the truncated bitstream
does not raise, the third channel's delta silently stays zero, and the
returned pixel is (1, 1, 0).  The claim says such truncation must fail with
a `FormatError`. -/
theorem truncated_bitstream_decodes_ok :
    decompress (magicBytes ++ u32le 1 ++ u32le 1 ++ u32le 1 ++ u32le 1
      ++ u32le 0 ++ [17]) = .ok [[1, 1, 0]] := by rfl

/-- **C2, amended.** A truncated bitstream is not detected: whenever
`decodeDelta` (the record-decoding stage of decompress, lines 81–105)
returns at all, it returns a full H×W×3 delta array in which every position
beyond the symbols actually present in the bitstream (`2 · |binData|`
nibbles) silently holds delta 0; no `FormatError` is raised for the missing
symbols.  Decoding fails only if the side-channel consumption check fails. -/
theorem decodeDelta_truncation_silent (hw3 : Nat) (bin : List Nat)
    (decLen : Nat) (decData : List Nat) (δ : List Int)
    (h : decodeDelta hw3 bin decLen decData = .ok δ) :
    δ.length = hw3 ∧
    ∀ i, 2 * bin.length ≤ i → i < hw3 → δ.getD i 0 = 0 := by
  obtain ⟨ds, off, hloop, hoff, hδ⟩ := decodeDelta_ok_parts hw3 bin decLen
    decData δ h
  have hshape := unpackLoop_ok_shape _ _ _ _ _ _ hloop
  have htl : ((nibblesOf bin).take hw3).length = min hw3 (2 * bin.length) := by
    rw [List.length_take, nibblesOf_length]
  have hds : ds.length = min hw3 (2 * bin.length) := by
    rw [hshape.1, htl]
  constructor
  · rw [hδ, List.length_append, List.length_replicate, hds, htl]
    omega
  · intro i h2 hi
    have hik : i = ds.length + (i - ds.length) := by omega
    rw [hδ, hik, getD_append_len, getD_replicate_zero]

/-- Witness for C2 (amended), at the concrete truncated record of
`truncated_bitstream_decodes_ok`: bitstream `[0x11]` for 3 expected
symbols decodes to `[1, 1, 0]`, whose position 2 is the silent zero. -/
theorem decodeDelta_truncation_silent_witness :
    ([1, 1, 0] : List Int).length = 3 ∧
    ∀ i, 2 * ([(17 : Nat)] : List Nat).length ≤ i → i < 3 →
      ([1, 1, 0] : List Int).getD i 0 = 0 :=
  decodeDelta_truncation_silent 3 [17] 0 [] [1, 1, 0] (by rfl)

/-- **C3, counterexample.** The entry validation of compress (lines 16–20)
raises nothing for a sequence whose second frame has different dimensions
(2×2 after 1×1), nor for one whose second frame has 5 channels: only
emptiness and the *first* frame's channel count are checked before bytes
are written.  The claim says `InvalidInput` must be raised at entry in both
situations. -/
theorem entry_check_accepts_inconsistent_dims :
    compressEntryCheck [Frame.mk 1 1 3 [0, 0, 0],
      Frame.mk 2 2 3 (List.replicate 12 0)] = none ∧
    compressEntryCheck [Frame.mk 1 1 3 [0, 0, 0],
      Frame.mk 1 1 5 (List.replicate 5 0)] = none := by
  exact ⟨rfl, rfl⟩

/-- **C3, amended.** compress raises `ValueError` at entry, before any bytes
are written, exactly when the frame sequence is empty or when the *first*
frame does not have exactly 3 channels; later frames' channel counts and
dimension consistency across the sequence are not checked at entry. -/
theorem compress_entry_validation (frames : List Frame) :
    (frames = [] → compress frames = .error "No frames provided") ∧
    (∀ f fs, frames = f :: fs → f.C ≠ 3 →
      compress frames = .error "Frames must be RGB (3 channels)") ∧
    (∀ f fs, frames = f :: fs → f.C = 3 →
      compressEntryCheck frames = none) := by
  refine ⟨?_, ?_, ?_⟩
  · intro h; subst h; rfl
  · intro f fs h hC; subst h
    simp [compress, compressEntryCheck, hC]
  · intro f fs h hC; subst h
    simp [compressEntryCheck, hC]

/-- Witness for C3 (amended): the three entry behaviours at concrete
inputs — empty input, a 4-channel first frame, a 3-channel first frame. -/
theorem compress_entry_validation_witness :
    compress ([] : List Frame) = .error "No frames provided" ∧
    compress [Frame.mk 1 1 4 [0, 0, 0, 0]]
      = .error "Frames must be RGB (3 channels)" ∧
    compressEntryCheck [Frame.mk 1 1 3 [0, 0, 0]] = none :=
  ⟨(compress_entry_validation []).1 rfl,
   (compress_entry_validation [Frame.mk 1 1 4 [0, 0, 0, 0]]).2.1 _ _ rfl
     (by decide),
   (compress_entry_validation [Frame.mk 1 1 3 [0, 0, 0]]).2.2 _ _ rfl
     (by decide)⟩

/-- **C4.** For every delta in [−255,255], decoding the symbol produced by
the symbol encoder (reading the two side-channel bytes exactly when the
symbol is the escape code 8, the direct inverse mapping otherwise) yields
the original delta, and the encoder never produces symbol 8 for any delta
with |delta| ≤ 7. -/
theorem symbol_roundtrip (d : Int) (h1 : -255 ≤ d) (h2 : d ≤ 255) :
    (if encodeSymbol d = 8 then
        int16FromLE ((int16LE d).getD 0 0) ((int16LE d).getD 1 0)
      else decodeSymbolDirect (encodeSymbol d)) = d ∧
    (d.natAbs ≤ 7 → encodeSymbol d ≠ 8) := by
  constructor
  · by_cases h7 : d.natAbs ≤ 7
    · rw [if_neg (by rw [encodeSymbol_eq_8_iff]; omega)]
      exact decodeSymbolDirect_encodeSymbol d h7
    · rw [if_pos (encodeSymbol_of_esc d (by omega))]
      exact int16FromLE_int16LE d (by omega) (by omega)
  · intro h7
    rw [Ne, encodeSymbol_eq_8_iff]
    omega

/-- Witness for C4 at the escape delta −200. -/
theorem symbol_roundtrip_witness :
    ((-255 : Int) ≤ -200) ∧ ((-200 : Int) ≤ 255) ∧
    ((if encodeSymbol (-200) = 8 then
        int16FromLE ((int16LE (-200)).getD 0 0) ((int16LE (-200)).getD 1 0)
      else decodeSymbolDirect (encodeSymbol (-200))) = -200 ∧
     ((-200 : Int).natAbs ≤ 7 → encodeSymbol (-200) ≠ 8)) :=
  ⟨by decide, by decide, symbol_roundtrip (-200) (by decide) (by decide)⟩

lemma getD_zipWith {α β γ : Type} (f : α → β → γ) :
    ∀ (a : List α) (b : List β) (i : Nat) (da : α) (db : β) (dc : γ),
      i < a.length → i < b.length →
      (List.zipWith f a b).getD i dc = f (a.getD i da) (b.getD i db)
  | [], _, i, _, _, _, h, _ => absurd h (by simp)
  | _ :: _, [], i, _, _, _, _, h => absurd h (by simp)
  | x :: xs, y :: ys, 0, da, db, dc, _, _ => rfl
  | x :: xs, y :: ys, i + 1, da, db, dc, h1, h2 => by
    simp only [List.zipWith_cons_cons, List.getD_cons_succ]
    exact getD_zipWith f xs ys i da db dc (by simpa using h1)
      (by simpa using h2)

lemma getD_listmap {α β : Type} (f : α → β) :
    ∀ (a : List α) (i : Nat) (da : α) (db : β), i < a.length →
      (a.map f).getD i db = f (a.getD i da)
  | [], i, _, _, h => absurd h (by simp)
  | x :: xs, 0, _, _, _ => rfl
  | x :: xs, i + 1, da, db, h => by
    simp only [List.map_cons, List.getD_cons_succ]
    exact getD_listmap f xs i da db (by simpa using h)

/-- **C5.** During decode, each channel of the output frame is the `int16`
(wide-domain) sum of the reference and decoded delta clipped to [0,255] and
cast to 8-bit, while the reference carried to the next frame is the
unclipped wide-domain sum — which, as the concrete instance shows, can
differ from the clipped output. -/
theorem reconstruct_clip_and_unclipped_carry (ref delta : List Int) (i : Nat)
    (h1 : i < ref.length) (h2 : i < delta.length) :
    ((reconstruct ref delta).1.getD i 0
        = clip8 (i16add (ref.getD i 0) (delta.getD i 0)) ∧
      (reconstruct ref delta).2.getD i 0
        = i16add (ref.getD i 0) (delta.getD i 0)) ∧
    (reconstruct [300] [10]).2 ≠ natsToInts (reconstruct [300] [10]).1 := by
  have hz : i < (List.zipWith i16add ref delta).length := by
    rw [List.length_zipWith]; omega
  refine ⟨⟨?_, ?_⟩, by decide⟩
  · show ((List.zipWith i16add ref delta).map clip8).getD i 0
      = clip8 (i16add (ref.getD i 0) (delta.getD i 0))
    rw [getD_listmap clip8 _ i 0 0 hz, getD_zipWith i16add ref delta i 0 0 0 h1 h2]
  · exact getD_zipWith i16add ref delta i 0 0 0 h1 h2

/-- Witness for C5 at `ref = [300]`, `delta = [10]`, `i = 0`: the output
channel is `clip8 310 = 255` while the carried reference keeps 310. -/
theorem reconstruct_clip_and_unclipped_carry_witness :
    (0 : Nat) < ([300] : List Int).length ∧ (0 : Nat) < ([10] : List Int).length ∧
    ((((reconstruct [300] [10]).1.getD 0 0
        = clip8 (i16add (([300] : List Int).getD 0 0) (([10] : List Int).getD 0 0)) ∧
      (reconstruct [300] [10]).2.getD 0 0
        = i16add (([300] : List Int).getD 0 0) (([10] : List Int).getD 0 0)) ∧
      (reconstruct [300] [10]).2 ≠ natsToInts (reconstruct [300] [10]).1)) :=
  ⟨by decide, by decide,
    reconstruct_clip_and_unclipped_carry [300] [10] 0 (by decide) (by decide)⟩

/-- **C6.** For a frame of symbols (one per delta value), the packed
bitstream has exactly `ceil(symbolCount / 2)` bytes, and its nibble stream
is the symbol stream — two symbols per byte, first in the high nibble —
followed by a single zero pad nibble exactly when the symbol count is odd. -/
theorem bitstream_length_law (delta : List Int) :
    (packNibbles (delta.map encodeSymbol)).length = (delta.length + 1) / 2 ∧
    nibblesOf (packNibbles (delta.map encodeSymbol))
      = delta.map encodeSymbol ++ List.replicate (delta.length % 2) 0 := by
  have hlt : ∀ x ∈ delta.map encodeSymbol, x < 16 := by
    intro x hx
    rcases List.mem_map.1 hx with ⟨d, _, rfl⟩
    exact encodeSymbol_lt_16 d
  constructor
  · rw [packNibbles_length, List.length_map]
  · rw [nibblesOf_packNibbles _ hlt, List.length_map]

/-- **C7.** The side channel of a frame holds exactly one 16-bit
little-endian two's-complement entry per escape symbol (symbol value 8) of
that frame's symbol stream, in stream order; in particular its byte length
is `2 ×` the number of escape symbols. -/
theorem side_channel_accounting (delta : List Int) :
    (escBytes delta).length = 2 * ((delta.map encodeSymbol).count 8) ∧
    escBytes delta
      = (delta.filter (fun d => decide (encodeSymbol d = 8))).flatMap
          int16LE := by
  induction delta with
  | nil => exact ⟨rfl, rfl⟩
  | cons d δ ih =>
    by_cases h7 : 7 < d.natAbs
    · have h8 : encodeSymbol d = 8 := encodeSymbol_of_esc d h7
      refine ⟨?_, ?_⟩
      · rw [escBytes_cons_esc d δ h7, List.length_append, int16LE_length,
          List.map_cons, List.count_cons, ih.1, h8]
        simp
        omega
      · rw [escBytes_cons_esc d δ h7, List.filter_cons, if_pos (by simp [h8]),
          List.flatMap_cons, ih.2]
    · have h8 : encodeSymbol d ≠ 8 := by rw [Ne, encodeSymbol_eq_8_iff]; omega
      refine ⟨?_, ?_⟩
      · rw [escBytes_cons_small d δ (by omega), List.map_cons,
          List.count_cons, ih.1]
        simp [h8]
      · rw [escBytes_cons_small d δ (by omega), List.filter_cons,
          if_neg (by simp [h8]), ih.2]

/-- **C8.** When the symbol-unpacking loop of decompress reads an escape
symbol (value 8) with fewer than 2 unconsumed side-channel bytes remaining
(`dec_offset + 2 > dec_len`), it fails with the `"Missing large delta
bytes"` error instead of producing a delta for that position. -/
theorem side_channel_exhaustion_error (rest : List Nat) (decLen : Nat)
    (decData : List Nat) (off : Nat) (h : decLen < off + 2) :
    unpackLoop (8 :: rest) decLen decData off
      = .error "Missing large delta bytes" := by
  rw [unpackLoop, if_pos rfl, if_pos h]

/-- Witness for C8: an escape symbol with a declared side-channel length of
one byte fails immediately. -/
theorem side_channel_exhaustion_error_witness :
    (1 : Nat) < 0 + 2 ∧
    unpackLoop [8] 1 [] 0 = .error "Missing large delta bytes" :=
  ⟨by decide, side_channel_exhaustion_error [] 1 [] 0 (by decide)⟩

/-- **C9.** After unpacking a record's symbols, decompress checks consumed
side-channel bytes against the record's declared count (lines 104–105):
when decoding succeeds the declared length equals `2 ×` the number of
escape nibbles processed, and when the unpacking loop finishes with a
consumed count different from the declared length, `decodeDelta` fails with
the `"Decimal data mismatch"` error. -/
theorem side_channel_consumption_check (hw3 : Nat) (bin : List Nat)
    (decLen : Nat) (decData : List Nat) :
    (∀ δ, decodeDelta hw3 bin decLen decData = .ok δ →
      decLen = 2 * ((nibblesOf bin).take hw3).count 8) ∧
    (∀ ds off, unpackLoop ((nibblesOf bin).take hw3) decLen decData 0
        = .ok (ds, off) → off ≠ decLen →
      decodeDelta hw3 bin decLen decData = .error "Decimal data mismatch") := by
  constructor
  · intro δ h
    obtain ⟨ds, off, hloop, hoff, _⟩ := decodeDelta_ok_parts _ _ _ _ _ h
    have hsh := (unpackLoop_ok_shape _ _ _ _ _ _ hloop).2
    omega
  · intro ds off hloop hne
    simp only [decodeDelta, hloop]
    rw [if_pos hne]

/-- Witness for C9: a record with symbols `[1, 8, 0]` (one escape, so 2
bytes consumed) but a declared side-channel length of 5 fails with the
mismatch error. -/
theorem side_channel_consumption_check_witness :
    unpackLoop ((nibblesOf [24, 0]).take 3) 5 [56, 255, 0, 0, 0] 0
      = .ok ([1, -200, 0], 2) ∧ (2 : Nat) ≠ 5 ∧
    decodeDelta 3 [24, 0] 5 [56, 255, 0, 0, 0]
      = .error "Decimal data mismatch" :=
  ⟨by rfl, by decide,
    (side_channel_consumption_check 3 [24, 0] 5 [56, 255, 0, 0, 0]).2
      [1, -200, 0] 2 (by rfl) (by decide)⟩

lemma decodeDelta_ok_length (hw3 : Nat) (bin : List Nat) (decLen : Nat)
    (decData : List Nat) (δ : List Int)
    (h : decodeDelta hw3 bin decLen decData = .ok δ) : δ.length = hw3 := by
  obtain ⟨ds, off, hloop, _, hδ⟩ := decodeDelta_ok_parts _ _ _ _ _ h
  have hsh := (unpackLoop_ok_shape _ _ _ _ _ _ hloop).1
  have htl : ((nibblesOf bin).take hw3).length ≤ hw3 := by
    rw [List.length_take]; omega
  rw [hδ, List.length_append, List.length_replicate, hsh]
  omega

lemma decodeFrames_shape (hw3 : Nat) :
    ∀ (n : Nat) (bytes : List Nat) (ref : List Int)
      (frames : List (List Nat)), ref.length = hw3 →
      decodeFrames hw3 n bytes ref = .ok frames →
      frames.length = n ∧
        ∀ fr ∈ frames, fr.length = hw3 ∧ ∀ v ∈ fr, v ≤ 255
  | 0, bytes, ref, frames, _, h => by
    simp only [decodeFrames, Except.ok.injEq] at h
    subst h
    simp
  | n + 1, bytes, ref, frames, href, h => by
    rw [decodeFrames] at h
    by_cases hb8 : bytes.length < 8
    · rw [if_pos hb8] at h; exact absurd h (by simp)
    rw [if_neg hb8] at h
    rcases hdd : decodeDelta hw3
        ((bytes.drop 8).take (u32FromLE (bytes.getD 0 0) (bytes.getD 1 0)
          (bytes.getD 2 0) (bytes.getD 3 0)))
        (u32FromLE (bytes.getD 4 0) (bytes.getD 5 0) (bytes.getD 6 0)
          (bytes.getD 7 0))
        (((bytes.drop 8).drop (u32FromLE (bytes.getD 0 0) (bytes.getD 1 0)
          (bytes.getD 2 0) (bytes.getD 3 0))).take
          (u32FromLE (bytes.getD 4 0) (bytes.getD 5 0) (bytes.getD 6 0)
            (bytes.getD 7 0))) with e | δ
    · simp only [hdd] at h
      exact absurd h (by simp)
    simp only [hdd] at h
    rcases hrest : decodeFrames hw3 n
        (((bytes.drop 8).drop (u32FromLE (bytes.getD 0 0) (bytes.getD 1 0)
          (bytes.getD 2 0) (bytes.getD 3 0))).drop
          (u32FromLE (bytes.getD 4 0) (bytes.getD 5 0) (bytes.getD 6 0)
            (bytes.getD 7 0)))
        (reconstruct ref δ).2 with e | frs
    · simp only [hrest] at h
      exact absurd h (by simp)
    simp only [hrest] at h
    simp only [Except.ok.injEq] at h
    subst h
    have hδlen : δ.length = hw3 := decodeDelta_ok_length _ _ _ _ _ hdd
    have hnewlen : (reconstruct ref δ).2.length = hw3 := by
      show (List.zipWith i16add ref δ).length = hw3
      rw [List.length_zipWith, href, hδlen]
      omega
    have ih := decodeFrames_shape hw3 n _ _ frs hnewlen hrest
    refine ⟨by simp [ih.1], ?_⟩
    intro fr hfr
    rcases List.mem_cons.1 hfr with hfr | hfr
    · subst hfr
      constructor
      · show ((List.zipWith i16add ref δ).map clip8).length = hw3
        rw [List.length_map, List.length_zipWith, href, hδlen]
        omega
      · intro v hv
        rcases List.mem_map.1 hv with ⟨x, _, rfl⟩
        exact clip8_le x
    · exact ih.2 fr hfr

/-- **C10 (implicit).** Whenever decompress returns successfully, the
returned list has exactly the header's `frameCount` frames, and every frame
has exactly `H×W×3` channel values, each an 8-bit value in [0,255]. -/
theorem decompress_output_shape (file : List Nat) (frames : List (List Nat))
    (h : decompress file = .ok frames) :
    frames.length = headerFrameCount file ∧
    ∀ fr ∈ frames, fr.length = headerHeight file * headerWidth file * 3 ∧
      ∀ v ∈ fr, v ≤ 255 := by
  unfold decompress at h
  by_cases hm : file.take 4 ≠ magicBytes
  · rw [if_pos hm] at h; exact absurd h (by simp)
  rw [if_neg hm] at h
  by_cases hl : file.length < 16
  · rw [if_pos hl] at h; exact absurd h (by simp)
  rw [if_neg hl] at h
  exact decodeFrames_shape _ _ _ _ _ (List.length_replicate _ _) h

/-- Witness for C10 at a concrete single-frame file with an empty record. -/
theorem decompress_output_shape_witness :
    decompress (magicBytes ++ u32le 1 ++ u32le 1 ++ u32le 1 ++ u32le 0
      ++ u32le 0) = .ok [[0, 0, 0]] ∧
    ([[0, 0, 0]] : List (List Nat)).length
      = headerFrameCount (magicBytes ++ u32le 1 ++ u32le 1 ++ u32le 1
        ++ u32le 0 ++ u32le 0) ∧
    ∀ fr ∈ ([[0, 0, 0]] : List (List Nat)),
      fr.length = headerHeight (magicBytes ++ u32le 1 ++ u32le 1 ++ u32le 1
          ++ u32le 0 ++ u32le 0)
        * headerWidth (magicBytes ++ u32le 1 ++ u32le 1 ++ u32le 1
          ++ u32le 0 ++ u32le 0) * 3 ∧
      ∀ v ∈ fr, v ≤ 255 :=
  ⟨by rfl, decompress_output_shape _ _ (by rfl)⟩

end TwoPFX
